import Mathlib

/-!
# Verification of the race-replay and points-progression animation engine

This file shallowly embeds the animation engine of the results-tracking
site (the `setupRaceAnimation` / `animate` / `startAnimation` /
`createPointsProgressionGraph` functions of the main script) and proves
or refutes the specified properties.

Conventions of the embedding:
* JavaScript numbers appearing in the timing arithmetic are modelled as
  exact rationals (`ℚ`); `Date.now()` timestamps are natural numbers
  (milliseconds).
* The handful of places where a non-finite IEEE value can arise
  (`timeToSeconds` returns `parseFloat(str) || 0` on colon-free input,
  which is `Infinity` for the string "Infinity") are modelled with an
  explicit `JSNum` type carrying `nan` and signed infinities.
* `Array.prototype.sort` with a consistent comparator is required by
  ECMAScript to be a stable sort; it is modelled by a stable insertion
  sort `jsSort le` where `le a b` means "the comparator returns ≤ 0 on
  (a, b)".
* Mutable per-driver fields are threaded as explicit state records, and
  the per-frame callback becomes a function from state to state folded
  over the list of frame timestamps.
-/

namespace AMS2

/-! ## Easing (the `animate` callback, progress computation)

```js
const ANIMATION_DURATION = 4000;
...
const elapsed = now - startTime;
let adjustedProgress;
if (elapsed / ANIMATION_DURATION < 0.8) {
  adjustedProgress = (elapsed / ANIMATION_DURATION) / 0.8 * 0.8;
} else {
  const remainingProgress = (elapsed / ANIMATION_DURATION - 0.8) / 0.2;
  adjustedProgress = 0.8 + (remainingProgress * 0.5 * 0.2);
}
const progress = Math.min(adjustedProgress, 1);
```
-/

def ANIMATION_DURATION : ℚ := 4000

/-- The race easing function, as a function of raw progress
`r = elapsed / ANIMATION_DURATION`. -/
def adjustedProgress (r : ℚ) : ℚ :=
  if r < 0.8 then r / 0.8 * 0.8
  else 0.8 + (r - 0.8) / 0.2 * 0.5 * 0.2

/-- `const progress = Math.min(adjustedProgress, 1)`. -/
def clampedProgress (r : ℚ) : ℚ :=
  min (adjustedProgress r) 1

/-- The clamped progress of a frame whose elapsed wall-clock time is
`e` milliseconds. -/
def progressAtElapsed (e : ℕ) : ℚ :=
  clampedProgress ((e : ℚ) / ANIMATION_DURATION)

/-- The tail of `animate`:
`if (progress < 1) { animationId = requestAnimationFrame(animate); } else ...`
— whether another frame is scheduled after the frame at elapsed time `e`. -/
def continuesAfterFrame (e : ℕ) : Bool :=
  decide (progressAtElapsed e < 1)

/-- The easing formula exactly as the specification writes it:
`adjusted = r < 0.8 ? (r/0.8)*0.8 : 0.8 + ((r-0.8)/0.2)*0.5*0.2`. -/
def raceEasingSpec (r : ℚ) : ℚ :=
  if r < 0.8 then (r / 0.8) * 0.8
  else 0.8 + ((r - 0.8) / 0.2) * 0.5 * 0.2

/-! ## A model of ECMAScript stable `Array.prototype.sort`

ECMAScript requires `Array.prototype.sort` to be stable; for a
consistent comparator the result is the unique stable sort.  We model
it as a stable insertion sort, where `le a b = true` means "the
comparator returns ≤ 0 on `(a, b)`", i.e. `a` may stay in front of
`b`. -/

def jsInsert (le : α → α → Bool) (a : α) : List α → List α
  | [] => [a]
  | b :: bs => if le a b then a :: b :: bs else b :: jsInsert le a bs

def jsSort (le : α → α → Bool) : List α → List α
  | [] => []
  | a :: rest => jsInsert le a (jsSort le rest)

/-! ## Finisher data model (`setupRaceAnimation`)

```js
const drivers = top3.map((result, idx) => {
  const s1 = timeToSeconds(result.sector1);
  ...
  const total = s1 + s2 + s3;
  return { ..., sector1: s1, sector2: s2, sector3: s3, totalTime: total, ... };
});
const slowestTime = Math.max(...drivers.map(d => d.totalTime));
```

Here we model the finite case (each sector a rational); the `JSNum`
model below covers non-finite sectors. -/

structure Driver where
  sector1 : ℚ
  sector2 : ℚ
  sector3 : ℚ
deriving DecidableEq, Repr

/-- `const total = s1 + s2 + s3`. -/
def totalTime (d : Driver) : ℚ :=
  d.sector1 + d.sector2 + d.sector3

/-- `Math.max(...)` over a list (the callers guard against the empty
list, for which `Math.max` would give `-Infinity`). -/
def listMax : List ℚ → ℚ
  | [] => 0
  | x :: xs => xs.foldl max x

/-- `Math.min(...)` over a list. -/
def listMin : List ℚ → ℚ
  | [] => 0
  | x :: xs => xs.foldl min x

/-! ## Per-frame ranking score and lane ordering (`animate`)

```js
const fastestS1 = Math.min(...drivers.map(d => d.sector1));
const fastestS1S2 = Math.min(...drivers.map(d => d.sector1 + d.sector2));
const fastestTotal = Math.min(...drivers.map(d => d.totalTime));
const globalElapsed = progress * fastestTotal;
if (globalElapsed < fastestS1) { rankingScore = driver.sector1; }
else if (globalElapsed < fastestS1S2) { rankingScore = driver.sector1 + driver.sector2; }
else { rankingScore = driver.totalTime; }
...
driverStates.sort((a, b) => {
  if (Math.abs(a.rankingScore - b.rankingScore) > 0.001) {
    return a.rankingScore - b.rankingScore;
  }
  return a.idx - b.idx;
});
```
-/

def fastestS1 (drivers : List Driver) : ℚ :=
  listMin (drivers.map Driver.sector1)

def fastestS1S2 (drivers : List Driver) : ℚ :=
  listMin (drivers.map (fun d => d.sector1 + d.sector2))

def fastestTotal (drivers : List Driver) : ℚ :=
  listMin (drivers.map totalTime)

def rankingScore (drivers : List Driver) (p : ℚ) (d : Driver) : ℚ :=
  let globalElapsed := p * fastestTotal drivers
  if globalElapsed < fastestS1 drivers then d.sector1
  else if globalElapsed < fastestS1S2 drivers then d.sector1 + d.sector2
  else totalTime d

/-- The three-phase score exactly as the specification words it. -/
def specRankingScore (drivers : List Driver) (p : ℚ) (d : Driver) : ℚ :=
  let fs1 := listMin (drivers.map Driver.sector1)
  let fs1s2 := listMin (drivers.map (fun d => d.sector1 + d.sector2))
  let globalElapsed := p * listMin (drivers.map totalTime)
  if globalElapsed < fs1 then d.sector1
  else if fs1 ≤ globalElapsed ∧ globalElapsed < fs1s2 then d.sector1 + d.sector2
  else totalTime d

/-- The lane-sort comparator: the JS comparator returns ≤ 0 on `(a, b)`
(`a` may stay in front of `b`) iff the scores are within `0.001` and
`a.idx ≤ b.idx`, or the scores differ by more than `0.001` and
`a`'s is smaller. -/
def scoreLe (a b : ℕ × ℚ) : Bool :=
  if |a.2 - b.2| > 0.001 then decide (a.2 < b.2) else decide (a.1 ≤ b.1)

/-- The original indices of the entrants in lane order (top lane
first): the stable sort of `(idx, rankingScore)` pairs by the JS
comparator.  Position `pos` in this list is assigned `targetLane = pos`. -/
def laneOrder (drivers : List Driver) (p : ℚ) : List ℕ :=
  (jsSort scoreLe ((drivers.map (rankingScore drivers p)).enum)).map Prod.fst

/-- The final classification, per the specification's words: ascending
`totalTime`, exact ties broken by original input order. -/
def classLe (a b : ℕ × ℚ) : Bool :=
  decide (a.2 < b.2) || (decide (a.2 = b.2) && decide (a.1 ≤ b.1))

def classificationOrder (drivers : List Driver) : List ℕ :=
  (jsSort classLe ((drivers.map totalTime).enum)).map Prod.fst

/-! ## Finish tracking across frames (`animate` / `startAnimation`)

```js
const timeRatio = driver.totalTime / slowestTime;
const driverProgress = Math.min(progress / timeRatio, 1);
let x = startX + (trackLength * driverProgress);
let finished = false;
if (driverProgress >= 1) {
  x = finishX;
  finished = true;
  if (!driver.finished) { driver.finished = true; driver.finishTime = now; }
}
if (driver.finished) { finishOrder.push({ driver, idx, finishTime: driver.finishTime }); }
...
finishOrder.sort((a, b) => a.finishTime - b.finishTime);
finishOrder.forEach((item, finishPos) => {
  ... drawFinishCarpet(finishX, laneY, finishPos + 1, item.driver.color);
});
```

The per-driver mutable fields `finished` / `finishTime` are threaded as
a `RunState`; `lanePosition` does not feed into this logic and is
modelled separately below.  A playback run is a fold of the per-frame
update over the list of `Date.now()` values at which frames fire. -/

def slowestTime (drivers : List Driver) : ℚ :=
  listMax (drivers.map totalTime)

/-- `Math.min(progress / (driver.totalTime / slowestTime), 1)`. -/
def driverProgress (slowest p : ℚ) (d : Driver) : ℚ :=
  min (p / (totalTime d / slowest)) 1

structure RunState where
  finished : Bool
  finishTime : Option ℕ
deriving DecidableEq, Repr

def initRunState : RunState := ⟨false, none⟩

/-- The finish-flag update of one driver in one frame. -/
def stepDriver (slowest p : ℚ) (now : ℕ) (d : Driver) (st : RunState) :
    RunState :=
  if 1 ≤ driverProgress slowest p d then
    if st.finished then st else ⟨true, some now⟩
  else st

/-- One `animate` frame's effect on the finish flags, at wall-clock
time `now` for a playback started at `start`. -/
def frameStep (drivers : List Driver) (start : ℕ) (sts : List RunState)
    (now : ℕ) : List RunState :=
  (drivers.zip sts).map
    (fun pr => stepDriver (slowestTime drivers)
      (progressAtElapsed (now - start)) now pr.1 pr.2)

/-- The finish states after playing the frames at times `nows`. -/
def runFrames (drivers : List Driver) (start : ℕ) (nows : List ℕ) :
    List RunState :=
  nows.foldl (frameStep drivers start) (drivers.map (fun _ => initRunState))

/-- First element of the list satisfying `pred`, if any. -/
def firstHit (pred : ℕ → Bool) : List ℕ → Option ℕ
  | [] => none
  | x :: xs => if pred x then some x else firstHit pred xs

/-- The predicate "the frame at time `now` shows driver `d` at the
finish", i.e. its display progress has reached 1. -/
def finishPred (slowest : ℚ) (start : ℕ) (d : Driver) (now : ℕ) : Bool :=
  decide (1 ≤ driverProgress slowest (progressAtElapsed (now - start)) d)

/-- The per-frame `finishOrder.push` loop: `(idx, finishTime)` for each
finished driver, in original input order. -/
def finishEntries (sts : List RunState) : List (ℕ × ℕ) :=
  sts.enum.filterMap
    (fun pr => if pr.2.finished then some (pr.1, pr.2.finishTime.getD 0) else none)

/-- `finishOrder.sort((a, b) => a.finishTime - b.finishTime)`:
the comparator returns ≤ 0 iff `a.finishTime ≤ b.finishTime`. -/
def timeLe (a b : ℕ × ℕ) : Bool :=
  decide (a.2 ≤ b.2)

def finishOrderOf (sts : List RunState) : List (ℕ × ℕ) :=
  jsSort timeLe (finishEntries sts)

/-- Ascending finish time, ties broken by original input index (what
stability of the sort yields on the entries list). -/
def finLexLe (a b : ℕ × ℕ) : Bool :=
  decide (a.2 < b.2) || (decide (a.2 = b.2) && decide (a.1 ≤ b.1))

/-- `finishOrder.forEach((item, finishPos) => drawFinishCarpet(..., finishPos + 1, ...))`:
the rendered carpets as `(ordinal, driver index)` pairs. -/
def carpetsOf (sts : List RunState) : List (ℕ × ℕ) :=
  (finishOrderOf sts).enum.map (fun pr => (pr.1 + 1, pr.2.1))

/-! ## Lane assignment (`animate`) and reset (`startAnimation`)

```js
driverStates.forEach((state, position) => {
  state.targetLane = position;
  const currentLane = state.driver.lanePosition;
  const laneChangeSpeed = 0.01;
  if (Math.abs(currentLane - state.targetLane) < 0.01) {
    state.driver.lanePosition = state.targetLane;
  } else if (currentLane < state.targetLane) {
    state.driver.lanePosition = Math.min(currentLane + laneChangeSpeed, state.targetLane);
  } else if (currentLane > state.targetLane) {
    state.driver.lanePosition = Math.max(currentLane - laneChangeSpeed, state.targetLane);
  }
});
...
drivers.forEach(d => {
  d.progress = 0;
  d.finished = false;
  d.finishTime = null;
  d.lanePosition = 1; // Reset ALL cars to middle lane at start
});
```
-/

def laneChangeSpeed : ℚ := 0.01

/-- One frame's movement of `lanePosition` toward `targetLane`. -/
def stepLane (currentLane targetLane : ℚ) : ℚ :=
  if |currentLane - targetLane| < 0.01 then targetLane
  else if currentLane < targetLane then
    min (currentLane + laneChangeSpeed) targetLane
  else if currentLane > targetLane then
    max (currentLane - laneChangeSpeed) targetLane
  else currentLane

/-- The mutable per-driver fields reset by `startAnimation`. -/
structure DriverVis where
  progress : ℚ
  finished : Bool
  finishTime : Option ℕ
  lanePosition : ℚ
deriving DecidableEq, Repr

/-- The `drivers.forEach` reset in `startAnimation`. -/
def resetDriver (st : DriverVis) : DriverVis :=
  { st with progress := 0, finished := false, finishTime := none,
            lanePosition := 1 }

/-! ## Points progression (`createPointsProgressionGraph`)

```js
roundData.forEach(row => {
  const driver = row.Driver;
  const round = parseInt(row.Round) || 0;
  const points = parseInt(row['Total_Points']) || 0;
  if (!driverRounds[driver]) driverRounds[driver] = {};
  if (!driverRounds[driver][round]) driverRounds[driver][round] = 0;
  driverRounds[driver][round] += points;
  allRounds.add(round);
});
const sortedRounds = Array.from(allRounds).sort((a,b) => a - b);
...
const cumulativePoints = [0]; // FIXED: Start with 0 points at R0
let total = 0;
sortedRounds.forEach(round => {
  total += (driverRounds[driver][round] || 0);
  cumulativePoints.push(total);
});
```

Rows are modelled after the `parseInt(... ) || 0` normalisation, so
`round` and `pts` are integers. -/

structure RoundRow where
  driver : String
  round : ℤ
  pts : ℤ
deriving DecidableEq, Repr

/-- `driverRounds[driver][round] || 0`: the accumulated points of one
driver in one round (0 when the driver has no row for the round). -/
def ptsFor (rows : List RoundRow) (d : String) (r : ℤ) : ℤ :=
  (rows.filter (fun row => decide (row.driver = d ∧ row.round = r))).foldl
    (fun acc row => acc + row.pts) 0

/-- `Array.from(allRounds).sort((a,b) => a - b)`: the distinct round
numbers occurring in the data, ascending.  (The JS `Set` iterates in
insertion order; after the ascending sort of distinct integers the
result does not depend on that order.) -/
def sortedRounds (rows : List RoundRow) : List ℤ :=
  jsSort (fun a b => decide (a ≤ b)) (rows.map RoundRow.round).dedup

/-- The `cumulativePoints` series of one driver: `[0]` followed by the
running totals over `sortedRounds`. -/
def cumulativePoints (rows : List RoundRow) (d : String) : List ℤ :=
  (sortedRounds rows).scanl (fun total r => total + ptsFor rows d r) 0

/-- Modelled from the spec's words: `cumulativePoints[0] == 0` and
entry `i+1` is the sum of the driver's points over the first `i+1`
rounds in ascending round order. -/
def specCumulativeSeries (rows : List RoundRow) (d : String) : List ℤ :=
  0 :: (List.range (sortedRounds rows).length).map
    (fun i => (((sortedRounds rows).take (i + 1)).map (ptsFor rows d)).sum)

/-- Scenario B of the specification:
`[{X,round:1,pts:25},{X,round:2,pts:18},{Y,round:1,pts:10}]`. -/
def scenarioRows : List RoundRow :=
  [⟨"X", 1, 25⟩, ⟨"X", 2, 18⟩, ⟨"Y", 1, 10⟩]

/-! ## Visibility trigger (`setupRaceAnimation`, tail)

```js
let hasAnimated = false;
...
const observer = new IntersectionObserver((entries) => {
  entries.forEach(entry => {
    if (entry.isIntersecting && !hasAnimated) {
      hasAnimated = true;
      setTimeout(() => startAnimation(), 300);
    }
  });
}, { threshold: 0.3 });
observer.observe(canvas);
replayBtn.addEventListener('click', () => {
  hasAnimated = true;
  startAnimation();
});
```

`starts` counts the calls (scheduled or direct) to `startAnimation`. -/

structure TrigState where
  hasAnimated : Bool
  starts : ℕ
deriving DecidableEq, Repr

inductive TrigEv where
  | view (isIntersecting : Bool)
  | replay
deriving DecidableEq, Repr

def trigInit : TrigState := ⟨false, 0⟩

def trigStep (s : TrigState) : TrigEv → TrigState
  | .view inter =>
      if inter ∧ s.hasAnimated = false then ⟨true, s.starts + 1⟩ else s
  | .replay => ⟨true, s.starts + 1⟩

def trigRun (evs : List TrigEv) : TrigState :=
  evs.foldl trigStep trigInit

/-! ## Frame-loop scheduling (`startAnimation` / `animate` / `resizeCanvas`)

```js
let animationId = null;
let isAnimating = false;
...
function startAnimation() {
  if (animationId) { cancelAnimationFrame(animationId); }
  drivers.forEach(d => { ... });
  isAnimating = true;
  startTime = Date.now();
  animationId = requestAnimationFrame(animate);
}
// animate tail:
if (progress < 1) { animationId = requestAnimationFrame(animate); }
else { isAnimating = false; }
// resizeCanvas:
if (isAnimating) { cancelAnimationFrame(animationId); startAnimation(); }
```

`animationId = 0` plays the role of JS `null` (both are falsy, and
`requestAnimationFrame` ids are positive).  `pending` is the host's
list of frame callbacks scheduled for this surface, `nextId` the next
id the host will hand out. -/

structure SchedState where
  animationId : ℕ
  isAnimating : Bool
  nextId : ℕ
  pending : List ℕ
deriving DecidableEq, Repr

def schedInit : SchedState := ⟨0, false, 1, []⟩

/-- The body of `startAnimation`: cancel any prior pending frame, then
request a fresh one. -/
def startBody (s : SchedState) : SchedState :=
  let pending1 := if s.animationId ≠ 0 then s.pending.erase s.animationId
                  else s.pending
  { animationId := s.nextId, isAnimating := true, nextId := s.nextId + 1,
    pending := pending1 ++ [s.nextId] }

inductive SchedEv where
  /-- `startAnimation()` (initial visibility trigger or replay click). -/
  | startA
  /-- The host fires the next pending frame callback; `continues` is the
  value of `progress < 1` inside that `animate` call. -/
  | fire (continues : Bool)
  /-- `resizeCanvas()`. -/
  | resize
deriving DecidableEq, Repr

/-- The tail of one fired `animate` call, as seen by the scheduler:
the fired frame is gone from `pending`; if `progress < 1` (`c`) a new
frame is requested, otherwise `isAnimating` is cleared. -/
def fireBody (s : SchedState) (c : Bool) (rest : List ℕ) : SchedState :=
  if c then
    { animationId := s.nextId, isAnimating := s.isAnimating,
      nextId := s.nextId + 1, pending := rest ++ [s.nextId] }
  else
    { animationId := s.animationId, isAnimating := false,
      nextId := s.nextId, pending := rest }

def schedStep (s : SchedState) : SchedEv → SchedState
  | .startA => startBody s
  | .fire c =>
      match s.pending with
      | [] => s
      | _ :: rest => fireBody s c rest
  | .resize =>
      if s.isAnimating then
        startBody { s with pending := if s.animationId ≠ 0 then
                      s.pending.erase s.animationId else s.pending }
      else s

def schedRun (evs : List SchedEv) : SchedState :=
  evs.foldl schedStep schedInit

/-- The loop invariant of the surface's scheduling state: ids are
positive and fresh, and every pending frame is the (single) one stored
in `animationId`. -/
def schedInv (s : SchedState) : Prop :=
  0 < s.nextId ∧ s.animationId < s.nextId ∧ s.pending.length ≤ 1 ∧
    ∀ i ∈ s.pending, i = s.animationId ∧ i ≠ 0

/-! ## Non-finite inputs (`timeToSeconds` / driver construction)

`timeToSeconds` on a colon-free string returns `parseFloat(str) || 0`,
which is `Infinity` for the input string "Infinity"; on `MM:SS,mmm`
strings it returns a finite value.  `JSNum` models the possible IEEE
values flowing into the driver records; the driver construction
(`top3.map(...)`, with no filtering) and the shared reductions
`Math.max(...)` / `Math.min(...)` are reproduced over it. -/

inductive JSNum where
  | fin (q : ℚ)
  | posInf
  | negInf
  | nan
deriving DecidableEq, Repr

def jadd : JSNum → JSNum → JSNum
  | .nan, _ => .nan
  | _, .nan => .nan
  | .posInf, .negInf => .nan
  | .negInf, .posInf => .nan
  | .posInf, _ => .posInf
  | _, .posInf => .posInf
  | .negInf, _ => .negInf
  | _, .negInf => .negInf
  | .fin a, .fin b => .fin (a + b)

/-- `Math.max` on two values (NaN-propagating). -/
def jmax : JSNum → JSNum → JSNum
  | .nan, _ => .nan
  | _, .nan => .nan
  | .posInf, _ => .posInf
  | _, .posInf => .posInf
  | .negInf, b => b
  | a, .negInf => a
  | .fin a, .fin b => .fin (max a b)

/-- `Math.min` on two values (NaN-propagating). -/
def jmin : JSNum → JSNum → JSNum
  | .nan, _ => .nan
  | _, .nan => .nan
  | .negInf, _ => .negInf
  | _, .negInf => .negInf
  | .posInf, b => b
  | a, .posInf => a
  | .fin a, .fin b => .fin (min a b)

/-- `Math.max(...xs)` (`-Infinity` on the empty spread). -/
def listJMax : List JSNum → JSNum
  | [] => .negInf
  | x :: xs => xs.foldl jmax x

/-- `Math.min(...xs)` (`Infinity` on the empty spread). -/
def listJMin : List JSNum → JSNum
  | [] => .posInf
  | x :: xs => xs.foldl jmin x

/-- One raw top-3 record after `timeToSeconds` parsing of its three
sector strings. -/
structure RaceRecord where
  sector1 : JSNum
  sector2 : JSNum
  sector3 : JSNum
deriving DecidableEq, Repr

structure JDriver where
  sector1 : JSNum
  sector2 : JSNum
  sector3 : JSNum
  totalTime : JSNum
deriving DecidableEq, Repr

/-- The body of `top3.map((result, idx) => ...)`: every record is
mapped to a driver, with `totalTime = s1 + s2 + s3`; nothing is
filtered out. -/
def mkJDriver (r : RaceRecord) : JDriver :=
  ⟨r.sector1, r.sector2, r.sector3, jadd (jadd r.sector1 r.sector2) r.sector3⟩

def raceDrivers (top3 : List RaceRecord) : List JDriver :=
  top3.map mkJDriver

/-- `const slowestTime = Math.max(...drivers.map(d => d.totalTime));` -/
def slowestTimeJ (drivers : List JDriver) : JSNum :=
  listJMax (drivers.map JDriver.totalTime)

/-- `const fastestS1 = Math.min(...drivers.map(d => d.sector1));` -/
def fastestS1J (drivers : List JDriver) : JSNum :=
  listJMin (drivers.map JDriver.sector1)

/-- `const fastestS1S2 = Math.min(...drivers.map(d => d.sector1 + d.sector2));` -/
def fastestS1S2J (drivers : List JDriver) : JSNum :=
  listJMin (drivers.map (fun d => jadd d.sector1 d.sector2))

/-! ## Helper lemmas -/

/-- Closed form of the easing: identity below `0.8`, slope `1/2`
afterwards. -/
theorem adjustedProgress_eq (r : ℚ) :
    adjustedProgress r = if r < 0.8 then r else 0.4 + r / 2 := by
  unfold adjustedProgress
  split
  · ring
  · ring

theorem adjustedProgress_mono : ∀ r1 r2 : ℚ, r1 ≤ r2 →
    adjustedProgress r1 ≤ adjustedProgress r2 := by
  intro r1 r2 h
  rw [adjustedProgress_eq, adjustedProgress_eq]
  rcases lt_or_le r1 (0.8 : ℚ) with h1 | h1
  · rcases lt_or_le r2 (0.8 : ℚ) with h2 | h2
    · simpa [h1, h2] using h
    · have : r1 ≤ 0.4 + r2 / 2 := by
        have : (0.8 : ℚ) ≤ 0.4 + r2 / 2 := by linarith
        linarith
      simpa [h1, not_lt.mpr h2] using this
  · have h2 : ¬ r2 < (0.8 : ℚ) := not_lt.mpr (le_trans h1 h)
    simp only [not_lt.mpr h1, if_neg h2, if_false]
    linarith

theorem jsInsert_perm (le : α → α → Bool) (a : α) (l : List α) :
    List.Perm (jsInsert le a l) (a :: l) := by
  induction l with
  | nil => simp [jsInsert]
  | cons b bs ih =>
    unfold jsInsert
    split
    · exact List.Perm.refl _
    · exact List.Perm.trans (List.Perm.cons b ih) (List.Perm.swap a b bs)

theorem jsSort_perm (le : α → α → Bool) (l : List α) :
    List.Perm (jsSort le l) l := by
  induction l with
  | nil => exact List.Perm.refl _
  | cons a rest ih =>
    exact List.Perm.trans (jsInsert_perm le a (jsSort le rest))
      (List.Perm.cons a ih)

theorem mem_jsSort {le : α → α → Bool} {l : List α} {x : α} :
    x ∈ jsSort le l ↔ x ∈ l :=
  (jsSort_perm le l).mem_iff

/-- Inserting with two comparators that agree on the pairs actually
compared gives the same result. -/
theorem jsInsert_congr (le1 le2 : α → α → Bool) (a : α) (l : List α)
    (h : ∀ b ∈ l, le1 a b = le2 a b) :
    jsInsert le1 a l = jsInsert le2 a l := by
  induction l with
  | nil => rfl
  | cons b bs ih =>
    unfold jsInsert
    rw [h b (List.mem_cons_self b bs)]
    split
    · rfl
    · rw [ih (fun c hc => h c (List.mem_cons_of_mem b hc))]

/-- Two comparators that agree on every pair `(a, b)` with `P a b`,
where `P` holds pairwise along the input list, sort the input
identically.  The insertion sort only ever compares an element with
elements that came later in the input, so agreement on `P`-pairs is
enough. -/
theorem jsSort_congr (le1 le2 : α → α → Bool) (P : α → α → Prop)
    (hle : ∀ a b, P a b → le1 a b = le2 a b) :
    ∀ l : List α, l.Pairwise P → jsSort le1 l = jsSort le2 l := by
  intro l hl
  induction l with
  | nil => rfl
  | cons a rest ih =>
    have hrest : rest.Pairwise P := (List.pairwise_cons.mp hl).2
    have ha : ∀ b ∈ rest, P a b := (List.pairwise_cons.mp hl).1
    unfold jsSort
    rw [ih hrest]
    exact jsInsert_congr le1 le2 a (jsSort le2 rest)
      (fun b hb => hle a b (ha b (mem_jsSort.mp hb)))

/-- Sortedness of `jsSort` for a total, transitive comparator. -/
theorem jsSort_pairwise (le : α → α → Bool)
    (htot : ∀ a b, le a b = true ∨ le b a = true)
    (htrans : ∀ a b c, le a b = true → le b c = true → le a c = true) :
    ∀ l : List α, (jsSort le l).Pairwise (fun a b => le a b = true) := by
  have hins : ∀ (a : α) (l : List α),
      l.Pairwise (fun x y => le x y = true) →
      (jsInsert le a l).Pairwise (fun x y => le x y = true) := by
    intro a l
    induction l with
    | nil => intro _; simp [jsInsert]
    | cons b bs ih =>
      intro hl
      have hb : ∀ y ∈ bs, le b y = true := (List.pairwise_cons.mp hl).1
      have hbs : bs.Pairwise (fun x y => le x y = true) :=
        (List.pairwise_cons.mp hl).2
      unfold jsInsert
      split
      · rename_i hab
        refine List.pairwise_cons.mpr ⟨?_, hl⟩
        intro y hy
        rcases List.mem_cons.mp hy with rfl | hy
        · exact hab
        · exact htrans a b y hab (hb y hy)
      · rename_i hab
        have hba : le b a = true := by
          rcases htot a b with h | h
          · exact absurd h hab
          · exact h
        refine List.pairwise_cons.mpr ⟨?_, ih hbs⟩
        intro y hy
        have := (jsInsert_perm le a bs).mem_iff.mp hy
        rcases List.mem_cons.mp this with rfl | hy2
        · exact hba
        · exact hb y hy2
  intro l
  induction l with
  | nil => exact List.Pairwise.nil
  | cons a rest ih => exact hins a (jsSort le rest) ih

theorem le_foldl_max (b : ℚ) (l : List ℚ) : b ≤ l.foldl max b := by
  induction l generalizing b with
  | nil => exact le_refl b
  | cons x xs ih => exact le_trans (le_max_left b x) (ih (max b x))

theorem foldl_min_le (b : ℚ) (l : List ℚ) : l.foldl min b ≤ b := by
  induction l generalizing b with
  | nil => exact le_refl b
  | cons x xs ih => exact le_trans (ih (min b x)) (min_le_left b x)

theorem mem_le_foldl_max (l : List ℚ) (b x : ℚ) (hx : x ∈ l) :
    x ≤ l.foldl max b := by
  induction l generalizing b with
  | nil => cases hx
  | cons y ys ih =>
    rcases List.mem_cons.mp hx with rfl | h
    · exact le_trans (le_max_right b x) (le_foldl_max _ _)
    · exact ih (max b y) h

theorem foldl_min_le_mem (l : List ℚ) (b x : ℚ) (hx : x ∈ l) :
    l.foldl min b ≤ x := by
  induction l generalizing b with
  | nil => cases hx
  | cons y ys ih =>
    rcases List.mem_cons.mp hx with rfl | h
    · exact le_trans (foldl_min_le (min b x) ys) (min_le_right b x)
    · exact ih (min b y) h

theorem foldl_max_mem (l : List ℚ) (b : ℚ) :
    l.foldl max b = b ∨ l.foldl max b ∈ l := by
  induction l generalizing b with
  | nil => exact Or.inl rfl
  | cons x xs ih =>
    rcases ih (max b x) with h | h
    · rcases max_choice b x with hm | hm
      · exact Or.inl (by rw [List.foldl_cons, h, hm])
      · exact Or.inr (by rw [List.foldl_cons, h, hm]; exact List.mem_cons_self _ _)
    · exact Or.inr (List.mem_cons_of_mem _ h)

theorem foldl_min_mem (l : List ℚ) (b : ℚ) :
    l.foldl min b = b ∨ l.foldl min b ∈ l := by
  induction l generalizing b with
  | nil => exact Or.inl rfl
  | cons x xs ih =>
    rcases ih (min b x) with h | h
    · rcases min_choice b x with hm | hm
      · exact Or.inl (by rw [List.foldl_cons, h, hm])
      · exact Or.inr (by rw [List.foldl_cons, h, hm]; exact List.mem_cons_self _ _)
    · exact Or.inr (List.mem_cons_of_mem _ h)

theorem le_listMax {l : List ℚ} {x : ℚ} (hx : x ∈ l) : x ≤ listMax l := by
  cases l with
  | nil => cases hx
  | cons a xs =>
    rcases List.mem_cons.mp hx with rfl | h
    · exact le_foldl_max x xs
    · exact mem_le_foldl_max xs a x h

theorem listMin_le {l : List ℚ} {x : ℚ} (hx : x ∈ l) : listMin l ≤ x := by
  cases l with
  | nil => cases hx
  | cons a xs =>
    rcases List.mem_cons.mp hx with rfl | h
    · exact foldl_min_le x xs
    · exact foldl_min_le_mem xs a x h

theorem listMax_mem {l : List ℚ} (hl : l ≠ []) : listMax l ∈ l := by
  cases l with
  | nil => exact absurd rfl hl
  | cons a xs =>
    rcases foldl_max_mem xs a with h | h
    · rw [show listMax (a :: xs) = a from h]
      exact List.mem_cons_self _ _
    · exact List.mem_cons_of_mem _ h

theorem listMin_mem {l : List ℚ} (hl : l ≠ []) : listMin l ∈ l := by
  cases l with
  | nil => exact absurd rfl hl
  | cons a xs =>
    rcases foldl_min_mem xs a with h | h
    · rw [show listMin (a :: xs) = a from h]
      exact List.mem_cons_self _ _
    · exact List.mem_cons_of_mem _ h

theorem pairwise_fst_lt_enumFrom (l : List α) :
    ∀ n : ℕ, (List.enumFrom n l).Pairwise (fun a b => a.1 < b.1) := by
  have hmem : ∀ (l : List α) (n : ℕ) (b : ℕ × α),
      b ∈ List.enumFrom n l → n ≤ b.1 := by
    intro l
    induction l with
    | nil => intro n b hb; cases hb
    | cons x xs ih =>
      intro n b hb
      rcases List.mem_cons.mp hb with rfl | hb
      · exact le_refl n
      · exact le_trans (Nat.le_succ n) (ih (n + 1) b hb)
  induction l with
  | nil => intro n; exact List.Pairwise.nil
  | cons x xs ih =>
    intro n
    refine List.pairwise_cons.mpr ⟨?_, ih (n + 1)⟩
    intro b hb
    exact lt_of_lt_of_le (Nat.lt_succ_self n) (hmem xs (n + 1) b hb)

theorem pairwise_fst_lt_enum (l : List α) :
    l.enum.Pairwise (fun a b => a.1 < b.1) :=
  pairwise_fst_lt_enumFrom l 0

/-! ### Lemmas about the playback run -/

theorem zip_map_get {α β γ : Type} (f : α × β → γ) (ds : List α)
    (sts : List β) (j : ℕ) (d : α) (s : β)
    (hd : ds.get? j = some d) (hs : sts.get? j = some s) :
    ((ds.zip sts).map f).get? j = some (f (d, s)) := by
  induction ds generalizing sts j with
  | nil => cases hd
  | cons a as ih =>
    cases sts with
    | nil => cases hs
    | cons b bs =>
      cases j with
      | zero =>
        cases hd; cases hs; rfl
      | succ j =>
        exact ih bs j hd hs

theorem frameStep_length (drivers : List Driver) (start : ℕ)
    (sts : List RunState) (now : ℕ) (h : sts.length = drivers.length) :
    (frameStep drivers start sts now).length = drivers.length := by
  unfold frameStep
  rw [List.length_map, List.length_zip, h, Nat.min_self]

/-- The per-frame update acts on each driver's state independently:
projecting the fold to index `j` gives a single-driver fold. -/
theorem runFoldAux (drivers : List Driver) (start : ℕ) (nows : List ℕ) :
    ∀ (sts : List RunState), sts.length = drivers.length →
    ∀ (j : ℕ) (d : Driver) (st : RunState),
      drivers.get? j = some d → sts.get? j = some st →
      (nows.foldl (frameStep drivers start) sts).get? j =
        some (nows.foldl
          (fun st now => stepDriver (slowestTime drivers)
            (progressAtElapsed (now - start)) now d st) st) := by
  induction nows with
  | nil => intro sts _ j d st hd hs; exact hs ▸ rfl
  | cons now rest ih =>
    intro sts hlen j d st hd hs
    have hstep : (frameStep drivers start sts now).get? j =
        some (stepDriver (slowestTime drivers)
          (progressAtElapsed (now - start)) now d st) :=
      zip_map_get _ drivers sts j d st hd hs
    exact ih (frameStep drivers start sts now)
      (frameStep_length drivers start sts now hlen) j d _ hd hstep

theorem runFrames_get (drivers : List Driver) (start : ℕ) (nows : List ℕ)
    (j : ℕ) (d : Driver) (hd : drivers.get? j = some d) :
    (runFrames drivers start nows).get? j =
      some (nows.foldl
        (fun st now => stepDriver (slowestTime drivers)
          (progressAtElapsed (now - start)) now d st) initRunState) := by
  have hinit : (drivers.map (fun _ => initRunState)).get? j =
      some initRunState := by
    rw [List.get?_map, hd]; rfl
  exact runFoldAux drivers start nows _ (List.length_map _ _) j d
    initRunState hd hinit

theorem firstHit_cons (pred : ℕ → Bool) (x : ℕ) (xs : List ℕ) :
    firstHit pred (x :: xs) = if pred x then some x else firstHit pred xs :=
  rfl

/-- Once finished, a driver's state never changes again. -/
theorem foldl_stepDriver_finished (slowest : ℚ) (start : ℕ) (d : Driver)
    (nows : List ℕ) (t : ℕ) :
    nows.foldl (fun st now => stepDriver slowest
        (progressAtElapsed (now - start)) now d st) ⟨true, some t⟩ =
      ⟨true, some t⟩ := by
  induction nows with
  | nil => rfl
  | cons now rest ih =>
    have hstep : stepDriver slowest (progressAtElapsed (now - start)) now d
        ⟨true, some t⟩ = ⟨true, some t⟩ := by
      unfold stepDriver; split <;> rfl
    rw [List.foldl_cons, hstep, ih]

/-- The single-driver fold is determined by the first frame whose
display progress reaches 1: the flag is set exactly once, in that
frame, and the timestamp records it. -/
theorem singleFold_eq_firstHit (slowest : ℚ) (start : ℕ) (d : Driver)
    (nows : List ℕ) :
    nows.foldl (fun st now => stepDriver slowest
        (progressAtElapsed (now - start)) now d st) initRunState =
      match firstHit (finishPred slowest start d) nows with
      | none => initRunState
      | some t => ⟨true, some t⟩ := by
  induction nows with
  | nil => rfl
  | cons now rest ih =>
    by_cases h : finishPred slowest start d now = true
    · have hstep : stepDriver slowest (progressAtElapsed (now - start)) now d
          initRunState = ⟨true, some now⟩ := by
        unfold stepDriver
        rw [if_pos (of_decide_eq_true h)]
        rfl
      rw [List.foldl_cons, hstep, foldl_stepDriver_finished,
        firstHit_cons, if_pos h]
    · have hstep : stepDriver slowest (progressAtElapsed (now - start)) now d
          initRunState = initRunState := by
        unfold stepDriver
        rw [if_neg (fun hc => h (decide_eq_true hc))]
      rw [List.foldl_cons, hstep, ih, firstHit_cons, if_neg (fun hc => h hc)]

theorem firstHit_eq_some (pred : ℕ → Bool) (l : List ℕ) (t : ℕ)
    (h : firstHit pred l = some t) : t ∈ l ∧ pred t = true := by
  induction l with
  | nil => cases h
  | cons x xs ih =>
    unfold firstHit at h
    by_cases hx : pred x = true
    · rw [if_pos hx] at h
      cases h
      exact ⟨List.mem_cons_self _ _, hx⟩
    · rw [if_neg hx] at h
      rcases ih h with ⟨hmem, hp⟩
      exact ⟨List.mem_cons_of_mem _ hmem, hp⟩

theorem firstHit_isSome_iff (pred : ℕ → Bool) (l : List ℕ) :
    (firstHit pred l).isSome = true ↔ ∃ x ∈ l, pred x = true := by
  induction l with
  | nil => simp [firstHit]
  | cons x xs ih =>
    unfold firstHit
    by_cases hx : pred x = true
    · simp [hx]
    · rw [if_neg hx, ih]
      constructor
      · rintro ⟨y, hy, hp⟩
        exact ⟨y, List.mem_cons_of_mem _ hy, hp⟩
      · rintro ⟨y, hy, hp⟩
        rcases List.mem_cons.mp hy with rfl | hy2
        · exact absurd hp hx
        · exact ⟨y, hy2, hp⟩

/-- If `pred1` fires whenever `pred2` does, then along a strictly
increasing frame list the first `pred1`-frame is at or before the first
`pred2`-frame. -/
theorem firstHit_mono (pred1 pred2 : ℕ → Bool)
    (himp : ∀ n, pred2 n = true → pred1 n = true) :
    ∀ (l : List ℕ), l.Pairwise (· < ·) →
    ∀ t2, firstHit pred2 l = some t2 →
      ∃ t1, t1 ≤ t2 ∧ firstHit pred1 l = some t1 := by
  intro l
  induction l with
  | nil => intro _ t2 h; cases h
  | cons x xs ih =>
    intro hsort t2 h2
    have hx_lt : ∀ y ∈ xs, x < y := (List.pairwise_cons.mp hsort).1
    have hxs : xs.Pairwise (· < ·) := (List.pairwise_cons.mp hsort).2
    unfold firstHit at h2 ⊢
    by_cases hp2 : pred2 x = true
    · rw [if_pos hp2] at h2
      cases h2
      rw [if_pos (himp x hp2)]
      exact ⟨x, le_refl x, rfl⟩
    · rw [if_neg hp2] at h2
      by_cases hp1 : pred1 x = true
      · rw [if_pos hp1]
        have ht2 := (firstHit_eq_some pred2 xs t2 h2).1
        exact ⟨x, le_of_lt (hx_lt t2 ht2), rfl⟩
      · rw [if_neg hp1]
        exact ih hxs t2 h2

/-! ## Claim theorems -/

theorem one_le_adjustedProgress_iff (r : ℚ) :
    1 ≤ adjustedProgress r ↔ 6/5 ≤ r := by
  rw [adjustedProgress_eq]
  split
  · rename_i h
    constructor
    · intro h1; norm_num at h; linarith
    · intro h1; norm_num at h; linarith
  · constructor
    · intro h1; linarith
    · intro h1; linarith

theorem progressAtElapsed_eq_one_iff (e : ℕ) :
    progressAtElapsed e = 1 ↔ 4800 ≤ e := by
  unfold progressAtElapsed clampedProgress ANIMATION_DURATION
  rw [min_eq_right_iff, one_le_adjustedProgress_iff,
    le_div_iff (by norm_num : (0:ℚ) < 4000)]
  rw [show (6/5 : ℚ) * 4000 = ((4800 : ℕ) : ℚ) by norm_num]
  exact_mod_cast Nat.cast_le

/-- C4: for every raw progress `r ∈ [0,1]`, the race replay's adjusted
progress equals exactly the specified piecewise formula
`r < 0.8 ? (r/0.8)*0.8 : 0.8 + ((r-0.8)/0.2)*0.5*0.2`. -/
theorem C4_easing_formula (r : ℚ) (h0 : 0 ≤ r) (h1 : r ≤ 1) :
    adjustedProgress r = raceEasingSpec r := rfl

theorem C4_easing_formula_witness :
    (0 : ℚ) ≤ 1/2 ∧ (1/2 : ℚ) ≤ 1 ∧
      adjustedProgress (1/2) = raceEasingSpec (1/2) :=
  ⟨by norm_num, by norm_num,
    C4_easing_formula (1/2) (by norm_num) (by norm_num)⟩

/-- C3 counterexample: the easing is NOT 1 at raw progress 1 — it is
9/10 there, so `adjustedProgress(1.0) == 1.0` fails on the code. -/
theorem C3_cex : adjustedProgress 1 = 9/10 ∧ adjustedProgress 1 ≠ 1 := by
  rw [adjustedProgress_eq]
  norm_num

/-- C3 amended: `adjustedProgress(0.8) = 0.8` exactly,
`adjustedProgress(1.0) = 0.9` exactly (not 1), and `adjustedProgress`
is non-decreasing on `[0,1]`. -/
theorem C3_amended :
    adjustedProgress 0.8 = 0.8 ∧ adjustedProgress 1 = 9/10 ∧
      ∀ r1 r2 : ℚ, 0 ≤ r1 → r1 ≤ r2 → r2 ≤ 1 →
        adjustedProgress r1 ≤ adjustedProgress r2 := by
  refine ⟨?_, ?_, ?_⟩
  · rw [adjustedProgress_eq]; norm_num
  · rw [adjustedProgress_eq]; norm_num
  · intro r1 r2 _ h _
    exact adjustedProgress_mono r1 r2 h

theorem C3_amended_witness :
    (0:ℚ) ≤ 0 ∧ (0:ℚ) ≤ 1 ∧ (1:ℚ) ≤ 1 ∧
      adjustedProgress 0 ≤ adjustedProgress 1 :=
  ⟨le_refl 0, by norm_num, le_refl 1,
    C3_amended.2.2 0 1 (le_refl 0) (by norm_num) (le_refl 1)⟩

/-- C10: `animate` schedules another frame iff the clamped adjusted
progress is strictly below 1; that progress first reaches 1 at elapsed
= 4800 ms = 1.2 × ANIMATION_DURATION, while the easing yields only 0.9
at elapsed = ANIMATION_DURATION = 4000 ms — so playback lasts 20%
longer than the configured 4000 ms. -/
theorem C10_overrun :
    ANIMATION_DURATION = 4000 ∧
    (∀ e : ℕ, continuesAfterFrame e = true ↔ progressAtElapsed e < 1) ∧
    (∀ e : ℕ, progressAtElapsed e = 1 ↔ 4800 ≤ e) ∧
    progressAtElapsed 4000 = 9/10 ∧
    adjustedProgress 1 = 9/10 ∧
    (4800 : ℚ) = (12/10) * ANIMATION_DURATION := by
  refine ⟨rfl, ?_, progressAtElapsed_eq_one_iff, ?_, ?_, ?_⟩
  · intro e
    exact decide_eq_true_iff
  · unfold progressAtElapsed clampedProgress ANIMATION_DURATION
    rw [show ((4000 : ℕ) : ℚ) / 4000 = 1 by norm_num, adjustedProgress_eq]
    norm_num
  · rw [adjustedProgress_eq]; norm_num
  · unfold ANIMATION_DURATION; norm_num

theorem C10_overrun_witness :
    progressAtElapsed 4800 = 1 ∧ continuesAfterFrame 4800 = false := by
  have h1 : progressAtElapsed 4800 = 1 :=
    (C10_overrun.2.2.1 4800).mpr (le_refl 4800)
  refine ⟨h1, ?_⟩
  have h2 := C10_overrun.2.1 4800
  rw [h1] at h2
  cases hc : continuesAfterFrame 4800 with
  | false => rfl
  | true => exact absurd (h2.mp hc) (lt_irrefl 1)

theorem scanl_add_eq (g : ℤ → ℤ) (l : List ℤ) (b : ℤ) :
    l.scanl (fun total r => total + g r) b =
      b :: (List.range l.length).map
        (fun i => b + ((l.take (i + 1)).map g).sum) := by
  induction l generalizing b with
  | nil => rfl
  | cons x xs ih =>
    rw [List.scanl_cons, ih (b + g x), List.length_cons,
      List.range_succ_eq_map, List.map_cons, List.map_map]
    simp [Function.comp, List.take_succ_cons, add_assoc]

/-- C6: `cumulativePoints` starts at 0 for every driver and every
input, and entry `i+1` is the running sum of the driver's points
through the `i`-th round in ascending round order (flat on rounds the
driver did not score); in particular Scenario B gives X = [0,25,43]
and Y = [0,10,10]. -/
theorem C6_cumulative (rows : List RoundRow) (d : String) :
    cumulativePoints rows d = specCumulativeSeries rows d ∧
    (cumulativePoints rows d).head? = some 0 ∧
    cumulativePoints scenarioRows "X" = [0, 25, 43] ∧
    cumulativePoints scenarioRows "Y" = [0, 10, 10] := by
  have h : cumulativePoints rows d = specCumulativeSeries rows d := by
    unfold cumulativePoints specCumulativeSeries
    rw [scanl_add_eq]
    simp
  refine ⟨h, ?_, ?_, ?_⟩
  · rw [h]; rfl
  · decide
  · decide

/-- Once `hasAnimated` is set, further intersection entries change
nothing. -/
theorem foldl_views_fired (k : ℕ) (evs : List TrigEv)
    (h : ∀ e ∈ evs, ∃ b, e = TrigEv.view b) :
    evs.foldl trigStep ⟨true, k⟩ = ⟨true, k⟩ := by
  induction evs with
  | nil => rfl
  | cons e rest ih =>
    obtain ⟨b, rfl⟩ := h e (List.mem_cons_self e rest)
    have hstep : trigStep ⟨true, k⟩ (TrigEv.view b) = ⟨true, k⟩ := by
      simp [trigStep]
    rw [List.foldl_cons, hstep]
    exact ih (fun e he => h e (List.mem_cons_of_mem _ he))

/-- C7: the visibility trigger is one-shot — any nonempty sequence of
entered-view signals on the armed surface starts playback exactly
once; and a replay click unconditionally starts playback and marks the
trigger fired, so a later entered-view signal starts nothing. -/
theorem C7_one_shot :
    (∀ evs : List TrigEv, evs ≠ [] →
      (∀ e ∈ evs, e = TrigEv.view true) → (trigRun evs).starts = 1) ∧
    (∀ s : TrigState,
      (trigStep s TrigEv.replay).starts = s.starts + 1 ∧
      (trigStep s TrigEv.replay).hasAnimated = true ∧
      ∀ b, (trigStep (trigStep s TrigEv.replay) (TrigEv.view b)).starts =
        s.starts + 1) := by
  constructor
  · intro evs hne hall
    cases evs with
    | nil => exact absurd rfl hne
    | cons e rest =>
      have he : e = TrigEv.view true := hall e (List.mem_cons_self e rest)
      subst he
      have hstep : trigStep trigInit (TrigEv.view true) = ⟨true, 1⟩ := rfl
      unfold trigRun
      rw [List.foldl_cons, hstep,
        foldl_views_fired 1 rest
          (fun e he => ⟨true, hall e (List.mem_cons_of_mem _ he)⟩)]
  · intro s
    refine ⟨rfl, rfl, ?_⟩
    intro b
    have h1 : trigStep s TrigEv.replay = ⟨true, s.starts + 1⟩ := rfl
    rw [h1]
    simp [trigStep]

theorem C7_one_shot_witness :
    (trigRun [TrigEv.view true, TrigEv.view true]).starts = 1 ∧
    (trigStep trigInit TrigEv.replay).starts = 1 ∧
    (trigStep (trigStep trigInit TrigEv.replay) (TrigEv.view true)).starts
      = 1 := by
  refine ⟨?_, ?_, ?_⟩
  · exact C7_one_shot.1 [TrigEv.view true, TrigEv.view true]
      (by simp) (by decide)
  · exact (C7_one_shot.2 trigInit).1
  · exact (C7_one_shot.2 trigInit).2.2 true

/-- In an invariant state, the cancel at the top of `startAnimation`
leaves no pending frame at all. -/
theorem cancel_clears_pending (s : SchedState) (h : schedInv s) :
    (if s.animationId ≠ 0 then s.pending.erase s.animationId
     else s.pending) = [] := by
  obtain ⟨-, -, hlen, hall⟩ := h
  cases hp : s.pending with
  | nil => split <;> simp [hp]
  | cons x rest =>
    cases rest with
    | cons y t => rw [hp] at hlen; simp at hlen
    | nil =>
      obtain ⟨hx, hx0⟩ := hall x (by rw [hp]; exact List.mem_cons_self x [])
      subst hx
      rw [if_pos hx0]
      simp [List.erase_cons]

theorem startBody_inv (s : SchedState) (h : schedInv s) :
    schedInv (startBody s) ∧ (startBody s).pending = [s.nextId] := by
  have hp : (startBody s).pending = [s.nextId] := by
    unfold startBody
    rw [cancel_clears_pending s h]
    rfl
  obtain ⟨hpos, -, -, -⟩ := h
  refine ⟨⟨Nat.lt_succ_of_lt hpos, Nat.lt_succ_self _, ?_, ?_⟩, hp⟩
  · rw [hp]; exact le_refl 1
  · intro i hi
    rw [hp] at hi
    rcases List.mem_singleton.mp hi with rfl
    exact ⟨rfl, Nat.pos_iff_ne_zero.mp hpos⟩

theorem schedStep_inv (s : SchedState) (e : SchedEv) (h : schedInv s) :
    schedInv (schedStep s e) := by
  obtain ⟨hpos, hid, hlen, hall⟩ := h
  cases e with
  | startA => exact (startBody_inv s ⟨hpos, hid, hlen, hall⟩).1
  | fire c =>
    cases hp : s.pending with
    | nil =>
      show schedInv (match s.pending with
        | [] => s
        | _ :: rest => fireBody s c rest)
      rw [hp]
      exact ⟨hpos, hid, hlen, hall⟩
    | cons x rest =>
      have hrest : rest = [] := by
        rw [hp] at hlen
        cases rest with
        | nil => rfl
        | cons y t => simp at hlen
      subst hrest
      show schedInv (match s.pending with
        | [] => s
        | _ :: rest => fireBody s c rest)
      rw [hp]
      show schedInv (fireBody s c [])
      cases c with
      | true =>
        rw [show fireBody s true [] =
          (⟨s.nextId, s.isAnimating, s.nextId + 1, [] ++ [s.nextId]⟩ :
            SchedState) from rfl]
        refine ⟨Nat.lt_succ_of_lt hpos, Nat.lt_succ_self _, by simp, ?_⟩
        intro i hi
        simp only [List.nil_append, List.mem_singleton] at hi
        subst hi
        exact ⟨rfl, Nat.pos_iff_ne_zero.mp hpos⟩
      | false =>
        rw [show fireBody s false [] =
          (⟨s.animationId, false, s.nextId, []⟩ : SchedState) from rfl]
        exact ⟨hpos, hid, by simp, by simp⟩
  | resize =>
    by_cases hb : s.isAnimating = true
    · have hmid : schedInv { s with pending :=
          if s.animationId ≠ 0 then s.pending.erase s.animationId
          else s.pending } := by
        rw [cancel_clears_pending s ⟨hpos, hid, hlen, hall⟩]
        exact ⟨hpos, hid, by simp, by simp⟩
      show schedInv (if s.isAnimating then _ else s)
      rw [if_pos hb]
      exact (startBody_inv _ hmid).1
    · show schedInv (if s.isAnimating then _ else s)
      rw [if_neg hb]
      exact ⟨hpos, hid, hlen, hall⟩

theorem schedRun_inv (evs : List SchedEv) : schedInv (schedRun evs) := by
  have hinit : schedInv schedInit := by
    refine ⟨Nat.one_pos, Nat.one_pos, ?_, ?_⟩ <;> simp [schedInit]
  unfold schedRun
  induction evs using List.reverseRecOn with
  | nil => exact hinit
  | append_singleton evs e ih =>
    rw [List.foldl_append, List.foldl_cons, List.foldl_nil]
    exact schedStep_inv _ e ih

/-- C8: at most one frame callback is ever pending per surface — along
any event sequence (starts, frame firings, resize restarts), the
pending list never holds two frames, and a `startAnimation` performed
in any reachable state first cancels the prior pending frame: the
pending list right after it is exactly the newly requested frame. -/
theorem C8_single_loop (evs : List SchedEv) :
    (schedRun evs).pending.length ≤ 1 ∧
    (schedStep (schedRun evs) SchedEv.startA).pending =
      [(schedRun evs).nextId] := by
  have h := schedRun_inv evs
  exact ⟨h.2.2.1, (startBody_inv _ h).2⟩

/-- `lanePosition` moves toward the target by at most 0.01 per frame
and never passes it (it stays between the old position and the
target); the target lanes of a frame are exactly `0..N-1` (the lane
order is a permutation of `range N`); `startAnimation` resets every
driver to `lanePosition = 1` with the finished flag and finish
timestamp cleared. -/
theorem stepLane_perm_reset :
    (∀ c t : ℚ, |stepLane c t - c| ≤ (0.01 : ℚ) ∧
      min c t ≤ stepLane c t ∧ stepLane c t ≤ max c t) ∧
    (∀ (drivers : List Driver) (p : ℚ),
      (laneOrder drivers p).Perm (List.range drivers.length)) ∧
    (∀ st : DriverVis, resetDriver st = ⟨0, false, none, 1⟩) := by
  refine ⟨?_, ?_, fun st => rfl⟩
  · intro c t
    unfold stepLane laneChangeSpeed
    split_ifs with h1 h2 h3
    · refine ⟨?_, min_le_right c t, le_max_right c t⟩
      rw [abs_sub_comm]
      exact le_of_lt h1
    · have hge : c ≤ min (c + 0.01) t := le_min (by linarith) (le_of_lt h2)
      have hle : min (c + 0.01) t ≤ c + 0.01 := min_le_left _ _
      refine ⟨?_, ?_, ?_⟩
      · rw [abs_of_nonneg (by linarith)]
        linarith
      · rw [min_eq_left (le_of_lt h2)]
        exact hge
      · exact le_trans (min_le_right _ _) (le_max_right c t)
    · have hle2 : max (c - 0.01) t ≤ c := max_le (by linarith) (le_of_lt h3)
      have hge2 : c - 0.01 ≤ max (c - 0.01) t := le_max_left _ _
      refine ⟨?_, ?_, ?_⟩
      · rw [abs_of_nonpos (by linarith)]
        linarith
      · rw [min_eq_right (le_of_lt h3)]
        exact le_max_right _ _
      · rw [max_eq_left (le_of_lt h3)]
        exact hle2
    · refine ⟨by simp; norm_num, min_le_left c t, le_max_left c t⟩
  · intro drivers p
    have h2 := (jsSort_perm scoreLe
      ((drivers.map (rankingScore drivers p)).enum)).map Prod.fst
    unfold laneOrder
    refine h2.trans ?_
    rw [show ((drivers.map (rankingScore drivers p)).enum).map Prod.fst =
      List.range (drivers.map (rankingScore drivers p)).length by simp]
    rw [List.length_map]

theorem jmax_ne_nan (a b : JSNum) (ha : a ≠ JSNum.nan)
    (hb : b ≠ JSNum.nan) : jmax a b ≠ JSNum.nan := by
  cases a <;> cases b <;> simp_all [jmax]

theorem jmax_posInf_left (b : JSNum) (hb : b ≠ JSNum.nan) :
    jmax JSNum.posInf b = JSNum.posInf := by
  cases b <;> simp_all [jmax]

theorem jmax_posInf_right (a : JSNum) (ha : a ≠ JSNum.nan) :
    jmax a JSNum.posInf = JSNum.posInf := by
  cases a <;> simp_all [jmax]

theorem foldl_jmax_posInf (l : List JSNum) :
    ∀ acc : JSNum, (acc = JSNum.posInf ∨ JSNum.posInf ∈ l) →
      acc ≠ JSNum.nan → (∀ x ∈ l, x ≠ JSNum.nan) →
      l.foldl jmax acc = JSNum.posInf := by
  induction l with
  | nil =>
    intro acc hd _ _
    rcases hd with rfl | h
    · rfl
    · cases h
  | cons x xs ih =>
    intro acc hd hacc hall
    have hx : x ≠ JSNum.nan := hall x (List.mem_cons_self x xs)
    have hxs : ∀ y ∈ xs, y ≠ JSNum.nan :=
      fun y hy => hall y (List.mem_cons_of_mem x hy)
    rw [List.foldl_cons]
    rcases hd with rfl | hmem
    · exact ih (jmax JSNum.posInf x)
        (Or.inl (jmax_posInf_left x hx)) (jmax_ne_nan _ x hacc hx) hxs
    · rcases List.mem_cons.mp hmem with rfl | hmem2
      · exact ih (jmax acc JSNum.posInf)
          (Or.inl (jmax_posInf_right acc hacc))
          (jmax_ne_nan acc _ hacc hx) hxs
      · exact ih (jmax acc x) (Or.inr hmem2)
          (jmax_ne_nan acc x hacc hx) hxs

/-- A `+Infinity` member (with no NaN present) makes `Math.max(...)`
return `+Infinity`. -/
theorem listJMax_posInf (l : List JSNum) (hmem : JSNum.posInf ∈ l)
    (hnan : ∀ x ∈ l, x ≠ JSNum.nan) : listJMax l = JSNum.posInf := by
  cases l with
  | nil => cases hmem
  | cons x xs =>
    have hx : x ≠ JSNum.nan := hnan x (List.mem_cons_self x xs)
    have hxs : ∀ y ∈ xs, y ≠ JSNum.nan :=
      fun y hy => hnan y (List.mem_cons_of_mem x hy)
    rcases List.mem_cons.mp hmem with rfl | hmem2
    · exact foldl_jmax_posInf xs JSNum.posInf (Or.inl rfl) hx hxs
    · exact foldl_jmax_posInf xs x (Or.inr hmem2) hx hxs

/-- C5 counterexample: an entrant whose `sector1` parses to
`Infinity` is NOT excluded from the replay set — it is mapped into
`drivers` like any other record — and its non-finite `totalTime` flows
straight into the shared reductions: `slowestTime` and `fastestS1`
become `Infinity`. -/
theorem C5_cex :
    raceDrivers [⟨JSNum.posInf, JSNum.fin 1, JSNum.fin 1⟩] =
      [⟨JSNum.posInf, JSNum.fin 1, JSNum.fin 1, JSNum.posInf⟩] ∧
    slowestTimeJ (raceDrivers [⟨JSNum.posInf, JSNum.fin 1, JSNum.fin 1⟩]) =
      JSNum.posInf ∧
    fastestS1J (raceDrivers [⟨JSNum.posInf, JSNum.fin 1, JSNum.fin 1⟩]) =
      JSNum.posInf := ⟨rfl, rfl, rfl⟩

/-- C5 amended: no exclusion happens anywhere — `drivers` has exactly
one entry per input record whatever the sector values, every record's
driver is in the replay set, and the shared reductions range over all
of them, so a `+Infinity` `totalTime` (no NaN present) propagates into
`slowestTime`. -/
theorem C5_amended (top3 : List RaceRecord) :
    (raceDrivers top3).length = top3.length ∧
    (∀ r ∈ top3, mkJDriver r ∈ raceDrivers top3) ∧
    ((∃ d ∈ raceDrivers top3, d.totalTime = JSNum.posInf) →
      (∀ d ∈ raceDrivers top3, d.totalTime ≠ JSNum.nan) →
      slowestTimeJ (raceDrivers top3) = JSNum.posInf) := by
  refine ⟨List.length_map top3 mkJDriver, ?_, ?_⟩
  · intro r hr
    exact List.mem_map_of_mem mkJDriver hr
  · rintro ⟨d, hd, hdt⟩ hnan
    unfold slowestTimeJ
    apply listJMax_posInf
    · rw [← hdt]
      exact List.mem_map_of_mem JDriver.totalTime hd
    · intro x hx
      rcases List.mem_map.mp hx with ⟨d2, hd2, rfl⟩
      exact hnan d2 hd2

theorem C5_amended_witness :
    (raceDrivers [⟨JSNum.posInf, JSNum.fin 1, JSNum.fin 1⟩]).length = 1 ∧
    slowestTimeJ (raceDrivers [⟨JSNum.posInf, JSNum.fin 1, JSNum.fin 1⟩]) =
      JSNum.posInf := by
  have h := C5_amended [⟨JSNum.posInf, JSNum.fin 1, JSNum.fin 1⟩]
  exact ⟨h.1, h.2.2 (by decide) (by decide)⟩

/-- The coded phase rule is exactly the specification's three-phase
rule. -/
theorem rankingScore_eq_spec (drivers : List Driver) (p : ℚ) (d : Driver) :
    rankingScore drivers p d = specRankingScore drivers p d := by
  simp only [rankingScore, specRankingScore, fastestS1, fastestS1S2,
    fastestTotal]
  by_cases h1 : p * listMin (drivers.map totalTime) <
      listMin (drivers.map Driver.sector1)
  · rw [if_pos h1, if_pos h1]
  · rw [if_neg h1, if_neg h1]
    by_cases h2 : p * listMin (drivers.map totalTime) <
        listMin (drivers.map fun d => d.sector1 + d.sector2)
    · rw [if_pos h2, if_pos ⟨not_lt.mp h1, h2⟩]
    · rw [if_neg h2, if_neg (fun hc => h2 hc.2)]

/-- At `p = 1` (nonnegative sectors) every entrant's ranking score is
its `totalTime`. -/
theorem rankingScore_at_one (drivers : List Driver)
    (hpos : ∀ d ∈ drivers, 0 ≤ d.sector1 ∧ 0 ≤ d.sector2 ∧ 0 ≤ d.sector3)
    (d : Driver) (hd : d ∈ drivers) :
    rankingScore drivers 1 d = totalTime d := by
  have hne : drivers.map totalTime ≠ [] := by
    intro h
    rw [List.map_eq_nil] at h
    rw [h] at hd
    cases hd
  obtain ⟨d0, hd0, hd0t⟩ :=
    List.mem_map.mp (listMin_mem hne)
  obtain ⟨h1, h2, h3⟩ := hpos d0 hd0
  have hs1 : fastestS1 drivers ≤ totalTime d0 := by
    have := listMin_le (List.mem_map_of_mem Driver.sector1 hd0)
    unfold fastestS1
    unfold totalTime
    linarith
  have hs12 : fastestS1S2 drivers ≤ totalTime d0 := by
    have h4 : listMin (drivers.map (fun d => d.sector1 + d.sector2)) ≤
        d0.sector1 + d0.sector2 :=
      listMin_le (List.mem_map_of_mem (fun d => d.sector1 + d.sector2) hd0)
    unfold fastestS1S2
    unfold totalTime
    linarith
  unfold rankingScore
  rw [hd0t] at hs1 hs12
  rw [if_neg (by rw [one_mul]; exact not_lt.mpr hs1),
    if_neg (by rw [one_mul]; exact not_lt.mpr hs12)]

/-- Under the 0.001-separation proviso the lane sort at `p = 1` agrees
with the classification sort. -/
theorem laneOrder_eq_class (drivers : List Driver)
    (hpos : ∀ d ∈ drivers, 0 ≤ d.sector1 ∧ 0 ≤ d.sector2 ∧ 0 ≤ d.sector3)
    (hsep : ∀ d1 ∈ drivers, ∀ d2 ∈ drivers,
      totalTime d1 = totalTime d2 ∨ |totalTime d1 - totalTime d2| > 0.001) :
    laneOrder drivers 1 = classificationOrder drivers := by
  have hscores : drivers.map (rankingScore drivers 1) =
      drivers.map totalTime :=
    List.map_congr_left (fun d hd => rankingScore_at_one drivers hpos d hd)
  unfold laneOrder classificationOrder
  rw [hscores]
  congr 1
  apply jsSort_congr scoreLe classLe
    (fun a b => a.1 < b.1 ∧
      (a.2 = b.2 ∨ |a.2 - b.2| > 0.001))
  · rintro a b ⟨hab, heq | hgt⟩
    · have habs : ¬ |a.2 - b.2| > (0.001 : ℚ) := by
        rw [heq]
        simp
        norm_num
      unfold scoreLe classLe
      rw [if_neg habs]
      have h1 : decide (a.1 ≤ b.1) = true := decide_eq_true (le_of_lt hab)
      have h2 : decide (a.2 = b.2) = true := decide_eq_true heq
      have h3 : decide (a.2 < b.2) = false := by
        rw [decide_eq_false_iff_not]
        rw [heq]
        exact lt_irrefl b.2
      rw [h1, h2, h3]
      rfl
    · have hne : a.2 ≠ b.2 := by
        intro h
        rw [h] at hgt
        simp at hgt
        norm_num at hgt
      unfold scoreLe classLe
      rw [if_pos hgt]
      have h2 : decide (a.2 = b.2) = false := decide_eq_false hne
      rw [h2]
      cases hlt : decide (a.2 < b.2) <;> rfl
  · refine List.Pairwise.and (pairwise_fst_lt_enum _) ?_
    apply List.pairwise_of_forall_mem_list
    intro a ha b hb
    obtain ⟨d1, hd1, h1⟩ :=
      List.mem_map.mp (List.snd_mem_of_mem_enum ha)
    obtain ⟨d2, hd2, h2⟩ :=
      List.mem_map.mp (List.snd_mem_of_mem_enum hb)
    rw [← h1, ← h2]
    exact hsep d1 hd1 d2 hd2

/-- C2 counterexample: the lane-sort comparator treats score
differences of at most 0.001 as ties broken by input index, so with
totals 3.0005 (index 0) and 3 (index 1) the lane order at `p = 1` is
`[0, 1]` while ascending `totalTime` is `[1, 0]` — the claimed
equality with the final classification fails. -/
theorem tol_pos : ∀ d ∈ [(⟨1, 1, 1 + 1/2000⟩ : Driver), ⟨1, 1, 1⟩],
    0 ≤ d.sector1 ∧ 0 ≤ d.sector2 ∧ 0 ≤ d.sector3 := by
  simp [List.forall_mem_cons]
  norm_num

theorem rankingScore_tol_slow :
    rankingScore [⟨1, 1, 1 + 1/2000⟩, ⟨1, 1, 1⟩] 1 ⟨1, 1, 1 + 1/2000⟩ =
      6001/2000 := by
  rw [rankingScore_at_one _ tol_pos _ (List.mem_cons_self _ _)]
  unfold totalTime
  norm_num

theorem rankingScore_tol_fast :
    rankingScore [⟨1, 1, 1 + 1/2000⟩, ⟨1, 1, 1⟩] 1 ⟨1, 1, 1⟩ = 3 := by
  rw [rankingScore_at_one _ tol_pos _
    (List.mem_cons_of_mem _ (List.mem_cons_self _ _))]
  unfold totalTime
  norm_num

/-- At `p = 1` the tolerance comparator keeps input order for totals
3.0005 and 3. -/
theorem laneOrder_tol_eval :
    laneOrder [⟨1, 1, 1 + 1/2000⟩, ⟨1, 1, 1⟩] 1 = [0, 1] := by
  have hs : ([(⟨1, 1, 1 + 1/2000⟩ : Driver), ⟨1, 1, 1⟩]).map
      (rankingScore [⟨1, 1, 1 + 1/2000⟩, ⟨1, 1, 1⟩] 1) =
      [6001/2000, 3] := by
    rw [List.map_cons, List.map_cons, List.map_nil,
      rankingScore_tol_slow, rankingScore_tol_fast]
  unfold laneOrder
  rw [hs]
  rw [show ([(6001/2000 : ℚ), 3]).enum =
    [(0, (6001/2000 : ℚ)), (1, 3)] from rfl]
  have habs : |(6001/2000 : ℚ) - 3| = 1/2000 := by
    rw [show (6001/2000 : ℚ) - 3 = 1/2000 by norm_num]
    exact abs_of_nonneg (by norm_num)
  have hle : scoreLe (0, 6001/2000) (1, 3) = true := by
    unfold scoreLe
    rw [if_neg (by rw [not_lt]; rw [show ((0 : ℕ), (6001/2000 : ℚ)).2 -
      ((1 : ℕ), (3 : ℚ)).2 = (6001/2000 : ℚ) - 3 from rfl, habs]; norm_num)]
    norm_num
  simp [jsSort, jsInsert, hle]

/-- The spec-side classification puts total 3 before total 3.0005. -/
theorem classificationOrder_tol_eval :
    classificationOrder [⟨1, 1, 1 + 1/2000⟩, ⟨1, 1, 1⟩] = [1, 0] := by
  unfold classificationOrder
  rw [show ([(⟨1, 1, 1 + 1/2000⟩ : Driver), ⟨1, 1, 1⟩]).map totalTime =
    [6001/2000, 3] by rw [List.map_cons, List.map_cons, List.map_nil,
      show totalTime ⟨1, 1, 1 + 1/2000⟩ = 6001/2000 by
        unfold totalTime; norm_num,
      show totalTime ⟨1, 1, 1⟩ = 3 by unfold totalTime; norm_num]]
  rw [show ([(6001/2000 : ℚ), 3]).enum =
    [(0, (6001/2000 : ℚ)), (1, 3)] from rfl]
  have hcl : classLe (0, 6001/2000) (1, 3) = false := by
    unfold classLe
    norm_num
  simp [jsSort, jsInsert, hcl]

theorem C2_cex :
    laneOrder [⟨1, 1, 1 + 1/2000⟩, ⟨1, 1, 1⟩] 1 = [0, 1] ∧
    classificationOrder [⟨1, 1, 1 + 1/2000⟩, ⟨1, 1, 1⟩] = [1, 0] ∧
    laneOrder [⟨1, 1, 1 + 1/2000⟩, ⟨1, 1, 1⟩] 1 ≠
      classificationOrder [⟨1, 1, 1 + 1/2000⟩, ⟨1, 1, 1⟩] := by
  refine ⟨laneOrder_tol_eval, classificationOrder_tol_eval, ?_⟩
  rw [laneOrder_tol_eval, classificationOrder_tol_eval]
  simp

/-- C2 amended: the per-frame ranking score follows the specified
three-phase rule exactly, and at `p = 1` (nonnegative sectors) it
reduces to `totalTime` for every entrant; the lane order at `p = 1`
equals the final classification order (ascending `totalTime`, ties by
input index) whenever every two entrants' totals are either exactly
equal or more than 0.001 apart — the comparator's 0.001 tolerance
makes closer-but-unequal totals sort by input index instead. -/
theorem C2_amended (drivers : List Driver)
    (hpos : ∀ d ∈ drivers, 0 ≤ d.sector1 ∧ 0 ≤ d.sector2 ∧ 0 ≤ d.sector3)
    (hsep : ∀ d1 ∈ drivers, ∀ d2 ∈ drivers,
      totalTime d1 = totalTime d2 ∨ |totalTime d1 - totalTime d2| > 0.001) :
    (∀ (ds : List Driver) (p : ℚ) (d : Driver),
      rankingScore ds p d = specRankingScore ds p d) ∧
    (∀ d ∈ drivers, rankingScore drivers 1 d = totalTime d) ∧
    laneOrder drivers 1 = classificationOrder drivers :=
  ⟨rankingScore_eq_spec,
   fun d hd => rankingScore_at_one drivers hpos d hd,
   laneOrder_eq_class drivers hpos hsep⟩

theorem C2_amended_witness :
    rankingScore [⟨1, 1, 1⟩, ⟨2, 1, 1⟩] 1 ⟨1, 1, 1⟩ = 3 ∧
    laneOrder [⟨1, 1, 1⟩, ⟨2, 1, 1⟩] 1 =
      classificationOrder [⟨1, 1, 1⟩, ⟨2, 1, 1⟩] := by
  have habs1 : |totalTime (⟨1, 1, 1⟩ : Driver) - totalTime ⟨2, 1, 1⟩| >
      (0.001 : ℚ) := by
    rw [show totalTime (⟨1, 1, 1⟩ : Driver) - totalTime ⟨2, 1, 1⟩ =
      (-1 : ℚ) by unfold totalTime; norm_num]
    rw [abs_neg, abs_one]
    norm_num
  have habs2 : |totalTime (⟨2, 1, 1⟩ : Driver) - totalTime ⟨1, 1, 1⟩| >
      (0.001 : ℚ) := by
    rw [abs_sub_comm]
    exact habs1
  have hsep : ∀ d1 ∈ [(⟨1, 1, 1⟩ : Driver), ⟨2, 1, 1⟩],
      ∀ d2 ∈ [(⟨1, 1, 1⟩ : Driver), ⟨2, 1, 1⟩],
      totalTime d1 = totalTime d2 ∨
        |totalTime d1 - totalTime d2| > 0.001 := by
    intro d1 h1 d2 h2
    rcases List.mem_cons.mp h1 with rfl | h1b
    · rcases List.mem_cons.mp h2 with rfl | h2b
      · exact Or.inl rfl
      · rcases List.mem_singleton.mp h2b with rfl
        exact Or.inr habs1
    · rcases List.mem_singleton.mp h1b with rfl
      rcases List.mem_cons.mp h2 with rfl | h2b
      · exact Or.inr habs2
      · rcases List.mem_singleton.mp h2b with rfl
        exact Or.inl rfl
  have h := C2_amended [⟨1, 1, 1⟩, ⟨2, 1, 1⟩]
    (by norm_num [List.forall_mem_cons]) hsep
  refine ⟨?_, h.2.2⟩
  have h2 := h.2.1 ⟨1, 1, 1⟩ (List.mem_cons_self _ _)
  rw [h2]
  unfold totalTime
  norm_num

/-! ### C1: finish order -/

theorem one_le_driverProgress_iff (slowest p : ℚ) (d : Driver)
    (hT : 0 < totalTime d) (hS : 0 < slowest) :
    1 ≤ driverProgress slowest p d ↔ totalTime d / slowest ≤ p := by
  unfold driverProgress
  rw [le_min_iff]
  have hr : 0 < totalTime d / slowest := div_pos hT hS
  constructor
  · rintro ⟨h1, -⟩
    exact (one_le_div hr).mp h1
  · intro h
    exact ⟨(one_le_div hr).mpr h, le_refl 1⟩

/-- A faster (or equal) total time finishes in the same frame or an
earlier one. -/
theorem finishPred_mono (slowest : ℚ) (start : ℕ) (d1 d2 : Driver)
    (h1 : 0 < totalTime d1) (h2 : 0 < totalTime d2) (hS : 0 < slowest)
    (hle : totalTime d1 ≤ totalTime d2) (n : ℕ)
    (hp : finishPred slowest start d2 n = true) :
    finishPred slowest start d1 n = true := by
  unfold finishPred at hp ⊢
  rw [decide_eq_true_iff] at hp ⊢
  rw [one_le_driverProgress_iff slowest _ d2 h2 hS] at hp
  rw [one_le_driverProgress_iff slowest _ d1 h1 hS]
  have : totalTime d1 / slowest ≤ totalTime d2 / slowest :=
    (div_le_div_right hS).mpr hle
  linarith

/-- The recorded per-frame finish order (the stored-timestamp sort) is
the lexicographic sort by (finish time, input index): the timestamp
comparator is stable, the entries are pushed in input order, and the
insertion sort only compares entries whose input indices increase. -/
theorem finishOrder_stable (sts : List RunState) :
    finishOrderOf sts = jsSort finLexLe (finishEntries sts) := by
  unfold finishOrderOf
  apply jsSort_congr timeLe finLexLe (fun a b => a.1 < b.1)
  · intro a b hab
    unfold timeLe finLexLe
    rcases lt_trichotomy a.2 b.2 with h | h | h
    · rw [decide_eq_true (le_of_lt h), decide_eq_true h]
      rfl
    · rw [decide_eq_true (le_of_eq h), decide_eq_true h,
        decide_eq_true (le_of_lt hab)]
      rw [decide_eq_false (not_lt.mpr (le_of_eq h.symm))]
      rfl
    · rw [decide_eq_false (not_le.mpr h), decide_eq_false (not_lt.mpr (le_of_lt h)),
        decide_eq_false (by intro hc; rw [hc] at h; exact lt_irrefl b.2 h)]
      rfl
  · unfold finishEntries
    apply List.Pairwise.filterMap _ ?_ (pairwise_fst_lt_enum sts)
    intro a b hab x hx y hy
    have hxa : x.1 = a.1 := by
      by_cases hfin : a.2.finished = true
      · rw [if_pos hfin] at hx
        rcases Option.mem_some_iff.mp hx with rfl
        rfl
      · rw [if_neg hfin] at hx
        cases hx
    have hyb : y.1 = b.1 := by
      by_cases hfin : b.2.finished = true
      · rw [if_pos hfin] at hy
        rcases Option.mem_some_iff.mp hy with rfl
        rfl
      · rw [if_neg hfin] at hy
        cases hy
    rw [hxa, hyb]
    exact hab

theorem match_firstHit_eq (o : Option ℕ) :
    (match o with
      | none => initRunState
      | some t => (⟨true, some t⟩ : RunState)) = ⟨o.isSome, o⟩ := by
  cases o <;> rfl

/-- C1 amended: for 1–3 finishers with positive sectors, playing
frames at strictly increasing times not before the start: (i) display
progress is `min(p / (totalTime/slowestTime), 1)`; (ii) the finished
flag and timestamp of each entrant are set exactly once, in the first
frame its display progress reaches 1 (and never if no frame reaches
it); (iii) finish timestamps are monotone in `totalTime` — a faster
total finishes at the same frame or an earlier one (equal totals
finish in the same frame); (iv) the recorded finish-event sequence is
ascending in finish timestamp with timestamp ties broken by original
input order; and (v) the carpets carry ordinals 1, 2, 3 in that event
order.  (The sequence is ascending in `totalTime` itself only when
entrants with distinct totals reach progress 1 in distinct frames;
same-frame finishes fall back to input order — see the
counterexample.) -/
theorem C1_amended (drivers : List Driver) (start : ℕ) (nows : List ℕ)
    (hlen : 1 ≤ drivers.length ∧ drivers.length ≤ 3)
    (hpos : ∀ d ∈ drivers, 0 < d.sector1 ∧ 0 < d.sector2 ∧ 0 < d.sector3)
    (hstart : ∀ n ∈ nows, start ≤ n)
    (hinc : nows.Pairwise (· < ·)) :
    (∀ (p : ℚ) (d : Driver), driverProgress (slowestTime drivers) p d =
      min (p / (totalTime d / slowestTime drivers)) 1) ∧
    (∀ (j : ℕ) (d : Driver), drivers.get? j = some d →
      (runFrames drivers start nows).get? j = some
        ⟨(firstHit (finishPred (slowestTime drivers) start d) nows).isSome,
         firstHit (finishPred (slowestTime drivers) start d) nows⟩) ∧
    (∀ d1 ∈ drivers, ∀ d2 ∈ drivers, totalTime d1 ≤ totalTime d2 →
      ∀ t2, firstHit (finishPred (slowestTime drivers) start d2) nows =
          some t2 →
        ∃ t1, t1 ≤ t2 ∧
          firstHit (finishPred (slowestTime drivers) start d1) nows =
            some t1) ∧
    finishOrderOf (runFrames drivers start nows) =
      jsSort finLexLe (finishEntries (runFrames drivers start nows)) ∧
    carpetsOf (runFrames drivers start nows) =
      (finishOrderOf (runFrames drivers start nows)).enum.map
        (fun pr => (pr.1 + 1, pr.2.1)) := by
  have htot : ∀ d ∈ drivers, 0 < totalTime d := by
    intro d hd
    obtain ⟨h1, h2, h3⟩ := hpos d hd
    unfold totalTime
    linarith
  have hS : 0 < slowestTime drivers := by
    have hne : drivers.map totalTime ≠ [] := by
      intro h
      rw [List.map_eq_nil] at h
      rw [h] at hlen
      exact absurd hlen.1 (by simp)
    obtain ⟨d0, hd0, hd0t⟩ := List.mem_map.mp (listMax_mem hne)
    unfold slowestTime
    rw [← hd0t]
    exact htot d0 hd0
  refine ⟨fun p d => rfl, ?_, ?_, finishOrder_stable _, rfl⟩
  · intro j d hd
    rw [runFrames_get drivers start nows j d hd,
      singleFold_eq_firstHit (slowestTime drivers) start d nows,
      match_firstHit_eq]
  · intro d1 hd1 d2 hd2 hle t2 h2
    exact firstHit_mono
      (finishPred (slowestTime drivers) start d1)
      (finishPred (slowestTime drivers) start d2)
      (fun n => finishPred_mono (slowestTime drivers) start d1 d2
        (htot d1 hd1) (htot d2 hd2) hS hle n)
      nows hinc t2 h2

theorem progressAtElapsed_zero : progressAtElapsed 0 = 0 := by
  unfold progressAtElapsed clampedProgress ANIMATION_DURATION
  rw [show ((0 : ℕ) : ℚ) / 4000 = 0 by norm_num, adjustedProgress_eq,
    if_pos (by norm_num : (0 : ℚ) < 0.8)]
  exact min_eq_left (by norm_num)

theorem driverProgress_zero (slowest : ℚ) (d : Driver) :
    driverProgress slowest 0 d = 0 := by
  unfold driverProgress
  rw [zero_div]
  exact min_eq_left (by norm_num)

theorem stepDriver_notyet (slowest : ℚ) (now : ℕ) (d : Driver)
    (st : RunState) (h : driverProgress slowest 0 d = 0) :
    stepDriver slowest 0 now d st = st := by
  unfold stepDriver
  rw [h, if_neg (by norm_num)]

/-- C1 counterexample: with frames at `now = 0` and `now = 4800`
(a realistic stalled-frame schedule), entrant 0 with `totalTime = 4`
and entrant 1 with `totalTime = 3` both first reach display progress 1
in the same frame, share the finish timestamp 4800, and the carpet
sequence is `[(1st, entrant 0), (2nd, entrant 1)]` — entrant 0 gets the
1st-place carpet although its `totalTime` is larger, refuting
"the sequence of display-finish events is in ascending order of
totalTime" as stated. -/
theorem C1_cex :
    runFrames [⟨2, 1, 1⟩, ⟨1, 1, 1⟩] 0 [0, 4800] =
      [⟨true, some 4800⟩, ⟨true, some 4800⟩] ∧
    carpetsOf (runFrames [⟨2, 1, 1⟩, ⟨1, 1, 1⟩] 0 [0, 4800]) =
      [(1, 0), (2, 1)] ∧
    totalTime (⟨1, 1, 1⟩ : Driver) < totalTime (⟨2, 1, 1⟩ : Driver) := by
  have htB : totalTime (⟨2, 1, 1⟩ : Driver) = 4 := by
    unfold totalTime
    norm_num
  have htA : totalTime (⟨1, 1, 1⟩ : Driver) = 3 := by
    unfold totalTime
    norm_num
  have hS : slowestTime [⟨2, 1, 1⟩, ⟨1, 1, 1⟩] = 4 := by
    show List.foldl max (totalTime ⟨2, 1, 1⟩) [totalTime ⟨1, 1, 1⟩] = 4
    rw [List.foldl_cons, List.foldl_nil, htB, htA,
      max_eq_left (by norm_num)]
  have hdpB : driverProgress 4 1 ⟨2, 1, 1⟩ = 1 := by
    unfold driverProgress
    rw [show totalTime (⟨2, 1, 1⟩ : Driver) / 4 = 1 by rw [htB]; norm_num,
      div_one, min_self]
  have hdpA : driverProgress 4 1 ⟨1, 1, 1⟩ = 1 := by
    unfold driverProgress
    rw [show totalTime (⟨1, 1, 1⟩ : Driver) / 4 = 3/4 by rw [htA],
      show (1 : ℚ) / (3/4) = 4/3 by norm_num]
    exact min_eq_right (by norm_num)
  have hstepB : stepDriver 4 1 4800 ⟨2, 1, 1⟩ initRunState =
      ⟨true, some 4800⟩ := by
    unfold stepDriver
    rw [hdpB, if_pos (le_refl 1)]
    rfl
  have hstepA : stepDriver 4 1 4800 ⟨1, 1, 1⟩ initRunState =
      ⟨true, some 4800⟩ := by
    unfold stepDriver
    rw [hdpA, if_pos (le_refl 1)]
    rfl
  have hframe1 : frameStep [⟨2, 1, 1⟩, ⟨1, 1, 1⟩] 0
      [initRunState, initRunState] 0 = [initRunState, initRunState] := by
    rw [show frameStep [⟨2, 1, 1⟩, ⟨1, 1, 1⟩] 0
        [initRunState, initRunState] 0 =
      [stepDriver (slowestTime [⟨2, 1, 1⟩, ⟨1, 1, 1⟩])
        (progressAtElapsed (0 - 0)) 0 ⟨2, 1, 1⟩ initRunState,
       stepDriver (slowestTime [⟨2, 1, 1⟩, ⟨1, 1, 1⟩])
        (progressAtElapsed (0 - 0)) 0 ⟨1, 1, 1⟩ initRunState] from rfl]
    rw [Nat.sub_self, progressAtElapsed_zero, hS,
      stepDriver_notyet 4 0 _ _ (driverProgress_zero 4 _),
      stepDriver_notyet 4 0 _ _ (driverProgress_zero 4 _)]
  have hframe2 : frameStep [⟨2, 1, 1⟩, ⟨1, 1, 1⟩] 0
      [initRunState, initRunState] 4800 =
      [⟨true, some 4800⟩, ⟨true, some 4800⟩] := by
    rw [show frameStep [⟨2, 1, 1⟩, ⟨1, 1, 1⟩] 0
        [initRunState, initRunState] 4800 =
      [stepDriver (slowestTime [⟨2, 1, 1⟩, ⟨1, 1, 1⟩])
        (progressAtElapsed (4800 - 0)) 4800 ⟨2, 1, 1⟩ initRunState,
       stepDriver (slowestTime [⟨2, 1, 1⟩, ⟨1, 1, 1⟩])
        (progressAtElapsed (4800 - 0)) 4800 ⟨1, 1, 1⟩ initRunState]
      from rfl]
    rw [Nat.sub_zero, (progressAtElapsed_eq_one_iff 4800).mpr (le_refl _),
      hS, hstepB, hstepA]
  have hrun : runFrames [⟨2, 1, 1⟩, ⟨1, 1, 1⟩] 0 [0, 4800] =
      [⟨true, some 4800⟩, ⟨true, some 4800⟩] := by
    show (frameStep [⟨2, 1, 1⟩, ⟨1, 1, 1⟩] 0
      (frameStep [⟨2, 1, 1⟩, ⟨1, 1, 1⟩] 0 [initRunState, initRunState] 0)
      4800) = [⟨true, some 4800⟩, ⟨true, some 4800⟩]
    rw [hframe1, hframe2]
  refine ⟨hrun, ?_, by rw [htA, htB]; norm_num⟩
  rw [hrun]
  decide

theorem C1_amended_witness :
    (runFrames [⟨1, 1, 1⟩] 0 [0, 4800]).get? 0 =
      some ⟨true, some 4800⟩ := by
  have h := C1_amended [⟨1, 1, 1⟩] 0 [0, 4800]
    ⟨by decide, by decide⟩
    (by
      intro d hd
      rw [List.mem_singleton] at hd
      subst hd
      exact ⟨by norm_num, by norm_num, by norm_num⟩)
    (fun n _ => Nat.zero_le n)
    (by decide)
  have h2 := h.2.1 0 ⟨1, 1, 1⟩ rfl
  have hS1 : slowestTime [⟨1, 1, 1⟩] = 3 := by
    show totalTime ⟨1, 1, 1⟩ = 3
    unfold totalTime
    norm_num
  have hpred0 : finishPred (slowestTime [⟨1, 1, 1⟩]) 0 ⟨1, 1, 1⟩ 0 =
      false := by
    unfold finishPred
    rw [Nat.sub_self, progressAtElapsed_zero, hS1,
      driverProgress_zero 3 _]
    rw [decide_eq_false_iff_not]
    norm_num
  have hpred48 : finishPred (slowestTime [⟨1, 1, 1⟩]) 0 ⟨1, 1, 1⟩ 4800 =
      true := by
    unfold finishPred
    rw [Nat.sub_zero, (progressAtElapsed_eq_one_iff 4800).mpr (le_refl _),
      hS1]
    rw [decide_eq_true_iff]
    unfold driverProgress
    rw [show totalTime (⟨1, 1, 1⟩ : Driver) / 3 = 1 by
      unfold totalTime; norm_num, div_one, min_self]
  have hfh : firstHit
      (finishPred (slowestTime [⟨1, 1, 1⟩]) 0 ⟨1, 1, 1⟩) [0, 4800] =
      some 4800 := by
    rw [firstHit_cons, if_neg (by rw [hpred0]; simp), firstHit_cons,
      if_pos hpred48]
  rw [h2, hfh]
  rfl

/-! ### C9: lane assignment order -/

theorem scoreLe_eq_classLe (a b : ℕ × ℚ) (hab : a.1 < b.1)
    (hsep : a.2 = b.2 ∨ |a.2 - b.2| > 0.001) :
    scoreLe a b = classLe a b := by
  rcases hsep with heq | hgt
  · have habs : ¬ |a.2 - b.2| > (0.001 : ℚ) := by
      rw [heq]
      simp
      norm_num
    unfold scoreLe classLe
    rw [if_neg habs]
    have h1 : decide (a.1 ≤ b.1) = true := decide_eq_true (le_of_lt hab)
    have h2 : decide (a.2 = b.2) = true := decide_eq_true heq
    have h3 : decide (a.2 < b.2) = false := by
      rw [decide_eq_false_iff_not]
      rw [heq]
      exact lt_irrefl b.2
    rw [h1, h2, h3]
    rfl
  · have hne : a.2 ≠ b.2 := by
      intro h
      rw [h] at hgt
      simp at hgt
      norm_num at hgt
    unfold scoreLe classLe
    rw [if_pos hgt]
    have h2 : decide (a.2 = b.2) = false := decide_eq_false hne
    rw [h2]
    cases hlt : decide (a.2 < b.2) <;> rfl

theorem classLe_eq_true_iff (a b : ℕ × ℚ) :
    classLe a b = true ↔ a.2 < b.2 ∨ (a.2 = b.2 ∧ a.1 ≤ b.1) := by
  unfold classLe
  simp

theorem classLe_total (a b : ℕ × ℚ) :
    classLe a b = true ∨ classLe b a = true := by
  rw [classLe_eq_true_iff, classLe_eq_true_iff]
  rcases lt_trichotomy a.2 b.2 with h | h | h
  · exact Or.inl (Or.inl h)
  · rcases Nat.le_total a.1 b.1 with h2 | h2
    · exact Or.inl (Or.inr ⟨h, h2⟩)
    · exact Or.inr (Or.inr ⟨h.symm, h2⟩)
  · exact Or.inr (Or.inl h)

theorem classLe_trans (a b c : ℕ × ℚ) (h1 : classLe a b = true)
    (h2 : classLe b c = true) : classLe a c = true := by
  rw [classLe_eq_true_iff] at h1 h2 ⊢
  rcases h1 with h1 | ⟨h1e, h1i⟩
  · rcases h2 with h2 | ⟨h2e, -⟩
    · exact Or.inl (lt_trans h1 h2)
    · exact Or.inl (by rw [← h2e]; exact h1)
  · rcases h2 with h2 | ⟨h2e, h2i⟩
    · exact Or.inl (by rw [h1e]; exact h2)
    · exact Or.inr ⟨h1e.trans h2e, le_trans h1i h2i⟩

/-- When every two elements' scores are exactly equal or more than
0.001 apart, the tolerance comparator sorts a fst-increasing list into
ascending score order with ties by the first component. -/
theorem jsSort_scoreLe_sorted (l : List (ℕ × ℚ))
    (hfst : l.Pairwise (fun a b => a.1 < b.1))
    (hsep : ∀ a ∈ l, ∀ b ∈ l, a.2 = b.2 ∨ |a.2 - b.2| > 0.001) :
    (jsSort scoreLe l).Pairwise
      (fun a b => a.2 < b.2 ∨ (a.2 = b.2 ∧ a.1 ≤ b.1)) := by
  have heq : jsSort scoreLe l = jsSort classLe l := by
    apply jsSort_congr scoreLe classLe
      (fun a b => a.1 < b.1 ∧ (a.2 = b.2 ∨ |a.2 - b.2| > 0.001))
    · rintro a b ⟨hab, hsep2⟩
      exact scoreLe_eq_classLe a b hab hsep2
    · exact List.Pairwise.and hfst (List.pairwise_of_forall_mem_list hsep)
  rw [heq]
  exact List.Pairwise.imp
    (fun hab => (classLe_eq_true_iff _ _).mp hab)
    (jsSort_pairwise classLe classLe_total classLe_trans l)

/-- C9 counterexample: target lanes are NOT always assigned by
ascending ranking score.  At `p = 1` with sector sets giving scores
3.0005 (input index 0) and 3 (input index 1) — closer than the
comparator's 0.001 tolerance — the lane order is `[0, 1]`: lane 0 (the
top lane) goes to index 0 although its ranking score is strictly
larger than index 1's. -/
theorem C9_cex :
    laneOrder [⟨1, 1, 1 + 1/2000⟩, ⟨1, 1, 1⟩] 1 = [0, 1] ∧
    rankingScore [⟨1, 1, 1 + 1/2000⟩, ⟨1, 1, 1⟩] 1 ⟨1, 1, 1⟩ = 3 ∧
    rankingScore [⟨1, 1, 1 + 1/2000⟩, ⟨1, 1, 1⟩] 1 ⟨1, 1, 1 + 1/2000⟩ =
      6001/2000 ∧
    (3 : ℚ) < 6001/2000 :=
  ⟨laneOrder_tol_eval, rankingScore_tol_fast, rankingScore_tol_slow,
    by norm_num⟩

/-- C9 amended: `lanePosition` moves toward its integer `targetLane`
by a bounded step of at most 0.01 per frame and never jumps past it;
the target lanes assigned in a frame are exactly `0..N-1` (a
permutation of `range N`); the assignment follows ascending ranking
score with ties by original input index whenever every two entrants'
scores are exactly equal or more than 0.001 apart (the comparator's
0.001 tolerance falls back to input-index order for closer scores, so
the assignment is not always by ascending score); and on every
playback start or replay all `lanePosition` values are reset to the
neutral middle value 1 with the finished flag and finish timestamp
cleared. -/
theorem C9_amended :
    (∀ c t : ℚ, |stepLane c t - c| ≤ (0.01 : ℚ) ∧
      min c t ≤ stepLane c t ∧ stepLane c t ≤ max c t) ∧
    (∀ (drivers : List Driver) (p : ℚ),
      (laneOrder drivers p).Perm (List.range drivers.length)) ∧
    (∀ (drivers : List Driver) (p : ℚ),
      (∀ d1 ∈ drivers, ∀ d2 ∈ drivers,
        rankingScore drivers p d1 = rankingScore drivers p d2 ∨
        |rankingScore drivers p d1 - rankingScore drivers p d2| > 0.001) →
      (jsSort scoreLe
        ((drivers.map (rankingScore drivers p)).enum)).Pairwise
        (fun a b => a.2 < b.2 ∨ (a.2 = b.2 ∧ a.1 ≤ b.1))) ∧
    (∀ st : DriverVis, resetDriver st = ⟨0, false, none, 1⟩) := by
  refine ⟨stepLane_perm_reset.1, stepLane_perm_reset.2.1, ?_,
    stepLane_perm_reset.2.2⟩
  intro drivers p hsep
  apply jsSort_scoreLe_sorted
  · exact pairwise_fst_lt_enum _
  · intro a ha b hb
    obtain ⟨d1, hd1, h1⟩ := List.mem_map.mp (List.snd_mem_of_mem_enum ha)
    obtain ⟨d2, hd2, h2⟩ := List.mem_map.mp (List.snd_mem_of_mem_enum hb)
    rw [← h1, ← h2]
    exact hsep d1 hd1 d2 hd2

theorem C9_amended_witness :
    (jsSort scoreLe (([(⟨1, 1, 1⟩ : Driver), ⟨2, 1, 1⟩].map
      (rankingScore [⟨1, 1, 1⟩, ⟨2, 1, 1⟩] 1)).enum)).Pairwise
      (fun a b => a.2 < b.2 ∨ (a.2 = b.2 ∧ a.1 ≤ b.1)) := by
  have hpos : ∀ d ∈ [(⟨1, 1, 1⟩ : Driver), ⟨2, 1, 1⟩],
      0 ≤ d.sector1 ∧ 0 ≤ d.sector2 ∧ 0 ≤ d.sector3 := by
    norm_num [List.forall_mem_cons]
  have hA : rankingScore [(⟨1, 1, 1⟩ : Driver), ⟨2, 1, 1⟩] 1 ⟨1, 1, 1⟩ =
      3 := by
    rw [rankingScore_at_one _ hpos _ (List.mem_cons_self _ _)]
    unfold totalTime
    norm_num
  have hB : rankingScore [(⟨1, 1, 1⟩ : Driver), ⟨2, 1, 1⟩] 1 ⟨2, 1, 1⟩ =
      4 := by
    rw [rankingScore_at_one _ hpos _
      (List.mem_cons_of_mem _ (List.mem_cons_self _ _))]
    unfold totalTime
    norm_num
  have habs1 : |rankingScore [(⟨1, 1, 1⟩ : Driver), ⟨2, 1, 1⟩] 1 ⟨1, 1, 1⟩ -
      rankingScore [(⟨1, 1, 1⟩ : Driver), ⟨2, 1, 1⟩] 1 ⟨2, 1, 1⟩| >
      (0.001 : ℚ) := by
    rw [hA, hB, show (3 : ℚ) - 4 = -1 by norm_num, abs_neg, abs_one]
    norm_num
  have habs2 : |rankingScore [(⟨1, 1, 1⟩ : Driver), ⟨2, 1, 1⟩] 1 ⟨2, 1, 1⟩ -
      rankingScore [(⟨1, 1, 1⟩ : Driver), ⟨2, 1, 1⟩] 1 ⟨1, 1, 1⟩| >
      (0.001 : ℚ) := by
    rw [abs_sub_comm]
    exact habs1
  apply C9_amended.2.2.1 [⟨1, 1, 1⟩, ⟨2, 1, 1⟩] 1
  intro d1 h1 d2 h2
  rcases List.mem_cons.mp h1 with rfl | h1b
  · rcases List.mem_cons.mp h2 with rfl | h2b
    · exact Or.inl rfl
    · rcases List.mem_singleton.mp h2b with rfl
      exact Or.inr habs1
  · rcases List.mem_singleton.mp h1b with rfl
    rcases List.mem_cons.mp h2 with rfl | h2b
    · exact Or.inr habs2
    · rcases List.mem_singleton.mp h2b with rfl
      exact Or.inl rfl

end AMS2
